import Mathlib

/-!
Verification of the FiniteStateMachine automaton library.

This file is a shallow embedding of `src/automaton.py`: the class
`FiniteStateMachine` becomes the structure `Fsm.FSM`, Python sets become
duplicate-free lists (insertion order standing in for Python's unspecified
set iteration order), Python dicts become association lists, and the
mutating methods become pure functions returning the updated structure
(paired with the error they raise, when the source can raise).  The word
acceptance method `admit` is embedded as `accepts` (the Lean name `accepts`
is used because of a lexical restriction on the source's method name), and
`_admit` as `accepts_from`.
-/

set_option maxRecDepth 10000

namespace Fsm

/-- Symbols of the alphabet (Python `str`). -/
abbrev Sym := String

/-- States.  The Python code uses arbitrary hashable values as states:
integers for atomic states, and tuples (of any arity) for the composite
states built by `set_deterministic` (subsets) and `product` (pairs). -/
inductive St where
  | int : Int → St
  | tup : List St → St

mutual

/-- Decidable equality on states (hand-written: `St` nests `List St`). -/
def St.decEq : (a b : St) → Decidable (a = b)
  | .int n, .int k =>
    if h : n = k then .isTrue (by rw [h]) else .isFalse (by simp [h])
  | .int _, .tup _ => .isFalse (by simp)
  | .tup _, .int _ => .isFalse (by simp)
  | .tup l, .tup k =>
    match St.decEqList l k with
    | .isTrue h => .isTrue (by rw [h])
    | .isFalse h => .isFalse (by simp [h])

/-- Decidable equality on lists of states. -/
def St.decEqList : (l1 l2 : List St) → Decidable (l1 = l2)
  | [], [] => .isTrue rfl
  | [], _ :: _ => .isFalse (by simp)
  | _ :: _, [] => .isFalse (by simp)
  | x :: xs, y :: ys =>
    match St.decEq x y, St.decEqList xs ys with
    | .isTrue h1, .isTrue h2 => .isTrue (by rw [h1, h2])
    | .isFalse h1, _ => .isFalse (by simp [h1])
    | _, .isFalse h2 => .isFalse (by simp [h2])

end

instance : DecidableEq St := St.decEq

mutual

/-- Rendering of a state, for `Repr`. -/
def St.str : St → String
  | .int n => toString n
  | .tup l => "(" ++ St.strList l ++ ")"

/-- Rendering of a list of states. -/
def St.strList : List St → String
  | [] => ""
  | [x] => St.str x
  | x :: xs => St.str x ++ "," ++ St.strList xs

end

instance : Repr St := ⟨fun s _ => St.str s⟩

/-- Insert into a duplicate-free list modelling a Python `set.add`. -/
def sadd [DecidableEq α] (x : α) (s : List α) : List α :=
  if x ∈ s then s else s ++ [x]

/-- Python set union `s | t` (left operand's order first). -/
def sunion [DecidableEq α] (s t : List α) : List α :=
  t.foldl (fun acc x => sadd x acc) s

/-- Build a Python set from an iterable (deduplicating). -/
def sset [DecidableEq α] (t : List α) : List α := sunion [] t

/-- A Python set comprehension `{f x for x in s}`. -/
def smap [DecidableEq β] (f : α → β) (s : List α) : List β := sset (s.map f)

/-- Dictionary lookup on an association list (keys are unique in all the
dictionaries the source builds). -/
def alLookup [DecidableEq κ] (l : List (κ × ν)) (k : κ) : Option ν :=
  match l with
  | [] => none
  | (k', v) :: rest => if k = k' then some v else alLookup rest k

/-- Dictionary update: modify the value at `k` in place if the key exists
(keeping its position, as Python dicts do), else append `(k, f dflt)`. -/
def alUpdate [DecidableEq κ] (l : List (κ × ν)) (k : κ) (f : ν → ν) (dflt : ν) :
    List (κ × ν) :=
  match l with
  | [] => [(k, f dflt)]
  | (k', v) :: rest =>
    if k = k' then (k', f v) :: rest else (k', v) :: alUpdate rest k f dflt

/-- Python `{**a, **b}`: entries of `b` override entries of `a`; the merged
dict lists `a`'s surviving keys first, then `b`'s. -/
def dict_merge [DecidableEq κ] (a b : List (κ × ν)) : List (κ × ν) :=
  a.filter (fun p => (alLookup b p.1).isNone) ++ b

/-- The automaton: `FiniteStateMachine.__init__`'s five fields. -/
structure FSM where
  alphabet : List Sym
  Q : List St
  Qi : List St
  Qf : List St
  relations : List (St × List St)
  conditions : List ((St × St) × List Sym)
deriving DecidableEq, Repr

/-- `get_rel`: neighbours of `a` (empty when `a` has no entry). -/
def get_rel (m : FSM) (a : St) : List St := (alLookup m.relations a).getD []

/-- `get_cond`: condition set of the relation `(a, b)` (empty when absent). -/
def get_cond (m : FSM) (a b : St) : List Sym := (alLookup m.conditions (a, b)).getD []

/-- `exist_rel`: whether a relation from `a` to `b` exists. -/
def exist_rel (m : FSM) (a b : St) : Bool := decide (b ∈ get_rel m a)

/-- `possible_path`: all states of `Q` reachable from `src` in one step
under condition `cond`. -/
def possible_path (m : FSM) (src : St) (cond : Sym) : List St :=
  m.Q.filter (fun state => exist_rel m src state && decide (cond ∈ get_cond m src state))

/-- `admit_empty_word`: the automaton accepts ε iff `Qi ∩ Qf ≠ ∅`. -/
def accepts_empty (m : FSM) : Bool :=
  !(m.Qi.filter (fun q => decide (q ∈ m.Qf))).isEmpty

/-- Embeds `_admit`: nondeterministic depth-first word simulation from `src`;
the word is represented as the list of its remaining letters. -/
def accepts_from (m : FSM) (word : List Sym) (src : St) : Bool :=
  match word with
  | [] => decide (src ∈ m.Qf)
  | c :: rest => (possible_path m src c).any (fun p => accepts_from m rest p)

/-- Embeds `admit`: empty words are routed through `admit_empty_word`,
non-empty words are simulated from every initial state. -/
def accepts (m : FSM) (word : List Sym) : Bool :=
  if word.isEmpty then accepts_empty m
  else m.Qi.any (fun src => accepts_from m word src)

/-- `is_deterministic`: at most one successor per state and letter. -/
def is_deterministic (m : FSM) : Bool :=
  m.Q.all (fun state => m.alphabet.all (fun letter =>
    !decide (2 ≤ (possible_path m state letter).length)))

/-- `is_complete`: at least one successor per state and letter. -/
def is_complete (m : FSM) : Bool :=
  m.Q.all (fun state => m.alphabet.all (fun letter =>
    !(possible_path m state letter).isEmpty))

/-- The two distinct `ValueError` raise sites of the `check_rel` decorator
(the spec names them InvalidSymbol and InvalidState), the `KeyError` that
`dict.pop` can raise in `remove_relation`, and the `TypeError` that
`max(states) + 1` raises in `set_complete` when a state is not an
integer. -/
inductive PyErr where
  | invalidSymbol
  | invalidState
  | keyError
  | typeError
deriving DecidableEq, Repr

/-- Result of an in-place mutating method: the error it raised (if any)
together with the state of the automaton when the call returns.  The
`check_rel` decorator validates before the method body runs, so on the
error paths of the decorated methods the automaton is the unchanged input. -/
structure MutResult where
  err : Option PyErr
  fsm : FSM
deriving DecidableEq, Repr

/-- `add_state`: idempotent insertion into `Q`. -/
def add_state (m : FSM) (a : St) : FSM := { m with Q := sadd a m.Q }

/-- The body of `add_relation` (after `check_rel` validation). -/
def add_relation_raw (m : FSM) (a b : St) : FSM :=
  { m with relations := alUpdate m.relations a (fun s => sadd b s) [] }

/-- `add_relation`, including the `check_rel` state validation. -/
def add_relation (m : FSM) (a b : St) : MutResult :=
  if a ∉ m.Q ∨ b ∉ m.Q then ⟨some .invalidState, m⟩
  else ⟨none, add_relation_raw m a b⟩

/-- `add_condition`, including the `check_rel` validations: the symbol is
checked first, then the two states; on success a missing relation is
created first and then the condition is inserted. -/
def add_condition (m : FSM) (a b : St) (c : Sym) : MutResult :=
  if c ∉ m.alphabet then ⟨some .invalidSymbol, m⟩
  else if a ∉ m.Q ∨ b ∉ m.Q then ⟨some .invalidState, m⟩
  else
    let m1 := if exist_rel m a b then m else add_relation_raw m a b
    ⟨none, { m1 with conditions := alUpdate m1.conditions (a, b) (fun s => sadd c s) [] }⟩

/-- `add_condition` at a call site where the source's validation is known to
succeed (every internal caller below passes states already in `Q` and
letters already in the alphabet, so no exception can be raised). -/
def add_condition_fsm (m : FSM) (a b : St) (c : Sym) : FSM :=
  (add_condition m a b c).fsm

/-- `remove_condition`: permissive no-op when the relation or the condition
is absent. -/
def remove_condition (m : FSM) (a b : St) (c : Sym) : FSM :=
  if !exist_rel m a b then m
  else if c ∈ get_cond m a b then
    { m with conditions := alUpdate m.conditions (a, b) (fun s => s.erase c) [] }
  else m

/-- `remove_relation`: no-op when absent; otherwise removes `b` from
`relations[a]` and then pops `conditions[(a, b)]` — the unguarded
`dict.pop` raises `KeyError` when the relation had no conditions entry,
leaving the relations map already mutated. -/
def remove_relation (m : FSM) (a b : St) : MutResult :=
  if !exist_rel m a b then ⟨none, m⟩
  else
    let m1 := { m with relations := alUpdate m.relations a (fun s => s.erase b) [] }
    match alLookup m1.conditions (a, b) with
    | none => ⟨some .keyError, m1⟩
    | some _ =>
      ⟨none, { m1 with conditions := m1.conditions.filter (fun p => decide (p.1 ≠ (a, b))) }⟩

/-- The cascade loop of `remove_state`: for every state `s`, remove the
relations `(q, s)` and `(s, q)`, propagating a `KeyError` if one occurs. -/
def remove_state_loop (m : FSM) (q : St) : List St → MutResult
  | [] => ⟨none, m⟩
  | s :: rest =>
    let r1 := remove_relation m q s
    match r1.err with
    | some e => ⟨some e, r1.fsm⟩
    | none =>
      let r2 := remove_relation r1.fsm s q
      match r2.err with
      | some e => ⟨some e, r2.fsm⟩
      | none => remove_state_loop r2.fsm q rest

/-- `remove_state`: permissive no-op when `q ∉ Q`; otherwise cascades over
all incident relations and then removes `q` from the maps and the three
state sets. -/
def remove_state (m : FSM) (q : St) : MutResult :=
  if q ∉ m.Q then ⟨none, m⟩
  else
    match remove_state_loop m q m.Q with
    | ⟨some e, m'⟩ => ⟨some e, m'⟩
    | ⟨none, m'⟩ =>
      let m2 := { m' with relations := m'.relations.filter (fun p => decide (p.1 ≠ q)) }
      ⟨none, { m2 with Qi := m2.Qi.erase q, Qf := m2.Qf.erase q, Q := m2.Q.erase q }⟩

/-- `copy`: a deep copy; in this pure embedding the value itself. -/
def copy (m : FSM) : FSM := m

/-- `load_table`: fold `add_condition` over the transition table,
propagating the first exception (the Python loop aborts on a raise). -/
def load_table (m : FSM) : List (St × Sym × St) → Except PyErr FSM
  | [] => .ok m
  | (src, label, dest) :: rest =>
    let r := add_condition m src dest label
    match r.err with
    | some e => .error e
    | none => load_table r.fsm rest

/-- The `FiniteStateMachine(alphabet, Q, Qi, Qf, table)` constructor:
start from empty maps and load the table. -/
def mk_fsm (alphabet : List Sym) (q qi qf : List St) (table : List (St × Sym × St)) :
    Except PyErr FSM :=
  load_table ⟨alphabet, q, qi, qf, [], []⟩ table

/-- The pure shape of `load_table` on a table whose entries all validate
(as proved below, `load_table` then returns exactly this fold). -/
def load_fold (m : FSM) : List (St × Sym × St) → FSM
  | [] => m
  | (src, label, dest) :: rest => load_fold (add_condition m src dest label).fsm rest

/-- `create_table`: the canonical triple-set exchange form. -/
def create_table (m : FSM) : List (St × Sym × St) :=
  m.Q.flatMap (fun a => m.Q.flatMap (fun b =>
    if exist_rel m a b then (get_cond m a b).map (fun c => (a, c, b)) else []))

/-- `create_loop`: a self-relation on `state` for every alphabet letter. -/
def create_loop (m : FSM) (state : St) : FSM :=
  m.alphabet.foldl (fun acc letter => add_condition_fsm acc state state letter) m

/-- The `for s in self.get_rel(src)` loop of `_exist_path`, threading the
shared mutable `black`/`gray` sets and stopping at the first success.
`rec` is the recursive call with one unit of fuel consumed. -/
def exist_path_fold (rec : St → List St → List St → Bool × List St × List St) :
    List St → List St → List St → Bool × List St × List St
  | [], black, gray => (false, black, gray)
  | s :: rest, black, gray =>
    match rec s black gray with
    | (true, b, g) => (true, b, g)
    | (false, b, g) => exist_path_fold rec rest b g

/-- Embeds `_exist_path`: tri-colour DFS.  `black`/`gray` are threaded in
place of Python's shared mutable sets.  `fuel` only bounds the recursion
depth so the definition is total: the colouring lets each state be expanded
at most twice before everything is black, so a fuel of `2|Q| + 2|relations| + 2`
is never exhausted; nothing proved below depends on the fuel value.  A
`black` hit returns Python's `None`, which the caller treats as false. -/
def exist_path_aux (m : FSM) : Nat → St → St → List St → List St → Bool × List St × List St
  | fuel, src, dest, black, gray =>
    if src = dest then (true, black, gray)
    else if src ∈ black then (false, black, gray)
    else
      match fuel with
      | 0 => (false, black, gray)
      | fuel' + 1 =>
        let bg : List St × List St :=
          if src ∈ gray then (sadd src black, gray.erase src) else (black, sadd src gray)
        exist_path_fold (fun s b g => exist_path_aux m fuel' s dest b g) (get_rel m src) bg.1 bg.2

/-- `exist_path`: directed reachability ignoring labels. -/
def exist_path (m : FSM) (src dest : St) : Bool :=
  (exist_path_aux m (2 * m.Q.length + 2 * m.relations.length + 2) src dest [] []).1

/-- `is_state_accessible`: some initial state reaches `q`. -/
def is_state_accessible (m : FSM) (q : St) : Bool :=
  m.Qi.any (fun qi => exist_path m qi q)

/-- `is_state_co_accessible`: `q` reaches some final state. -/
def is_state_co_accessible (m : FSM) (q : St) : Bool :=
  m.Qf.any (fun qf => exist_path m q qf)

/-- `is_accessible`: every state is accessible. -/
def is_accessible (m : FSM) : Bool := m.Q.all (is_state_accessible m)

/-- `is_co_accessible`: every state is co-accessible. -/
def is_co_accessible (m : FSM) : Bool := m.Q.all (is_state_co_accessible m)

/-- The worklist state of `set_deterministic`: the automaton being built,
the `done` set, the FIFO queue, and the trash-state counter. -/
structure DetState where
  a : FSM
  done : List St
  queue : List St
  trash_count : Int
deriving Repr

/-- The per-letter body of the `set_deterministic` worklist loop: `states`
is the composite state being processed, `qlist` its base states. -/
def det_letter (m : FSM) (states : St) (qlist : List St) (s : DetState) (letter : Sym) :
    DetState :=
  let next_states := qlist.foldl (fun acc q => sunion acc (possible_path m q letter)) []
  let is_final := !(next_states.filter (fun x => decide (x ∈ m.Qf))).isEmpty
  let new_state := St.tup next_states
  if next_states.isEmpty then
    let t := St.int s.trash_count
    let a1 := create_loop (add_state s.a t) t
    let a2 := add_condition_fsm a1 states t letter
    { s with a := a2, trash_count := s.trash_count + 1 }
  else
    let a1 := if new_state ∈ s.a.Q then s.a else add_state s.a new_state
    let a2 := add_condition_fsm a1 states new_state letter
    let queue' := if new_state ∉ s.done then s.queue ++ [new_state] else s.queue
    let a3 := if is_final then { a2 with Qf := sadd new_state a2.Qf } else a2
    { s with a := a3, queue := queue' }

/-- The worklist loop of `set_deterministic`.  `fuel` makes the recursion
total; the loop itself stops when the queue empties, which happens after
finitely many pops since every pop enters `done` and only composites not in
`done` are enqueued, so a sufficiently large fuel is never exhausted. -/
def det_loop (m : FSM) : Nat → DetState → FSM
  | 0, s => s.a
  | fuel + 1, s =>
    match s.queue with
    | [] => s.a
    | states :: rest =>
      let qlist := match states with | St.tup l => l | St.int _ => []
      let done' := sadd states s.done
      let s1 := m.alphabet.foldl (det_letter m states qlist) { s with done := done', queue := rest }
      det_loop m fuel s1

/-- `set_deterministic`: subset construction.  A copy is returned unchanged
when the automaton is already deterministic; otherwise the new initial
state is the tuple of the initial-state set and the worklist runs. -/
def set_deterministic (m : FSM) : FSM :=
  if is_deterministic m then copy m
  else
    let init := St.tup m.Qi
    let a0 : FSM :=
      { alphabet := m.alphabet, Q := [init], Qi := [init], Qf := [],
        relations := [], conditions := [] }
    det_loop m ((m.alphabet.length + 1) ^ (2 ^ m.Q.length + 1) + 1) ⟨a0, [], [init], 0⟩

/-- `complementary`: determinize if not already deterministic and complete,
then swap accepting and rejecting states. -/
def complementary (m : FSM) : FSM :=
  let a := if !(is_deterministic m && is_complete m) then set_deterministic m else copy m
  { a with Qf := a.Q.filter (fun q => decide (q ∉ a.Qf)) }

/-- Application of the renaming dictionary `d_states`.  Python indexes the
dict and raises `KeyError` on a missing state; in every use below the
domain of `d` covers all states that occur, so the default is never hit. -/
def apply_map (d : List (St × St)) (q : St) : St := (alLookup d q).getD q

/-- `rework_states` with an explicit renaming dictionary.  The dict
comprehensions rebuilding `relations`/`conditions` are embedded as maps:
key collisions cannot occur because every renaming passed below is
injective on the states of `m`. -/
def rework_states (m : FSM) (d : List (St × St)) : FSM :=
  { alphabet := m.alphabet,
    Q := smap (apply_map d) m.Q,
    Qi := smap (apply_map d) m.Qi,
    Qf := smap (apply_map d) m.Qf,
    relations := m.relations.map (fun p => (apply_map d p.1, smap (apply_map d) p.2)),
    conditions := m.conditions.map (fun p => ((apply_map d p.1.1, apply_map d p.1.2), p.2)) }

/-- `rework_states` with the default dictionary: consecutive integers from 1
in enumeration order. -/
def rework_states_default (m : FSM) : FSM :=
  rework_states m (m.Q.enum.map (fun p => (p.2, St.int (p.1 + 1))))

/-- The `while new_name in self.get_states()` scan of
`create_different_states_names`: the first integer `≥ n` whose state is not
in `aq`.  The fuel `|aq| + 1` always suffices (pigeonhole over `|aq| + 1`
consecutive integers), as proved below. -/
def next_free_aux : Nat → List St → Int → Int
  | 0, _, n => n
  | f + 1, aq, n => if St.int n ∈ aq then next_free_aux f aq (n + 1) else n

/-- The renaming dictionary built by `create_different_states_names`:
fresh consecutive integers starting from `n`, skipping members of `aq`. -/
def build_rename (aq : List St) : List St → Int → List (St × St)
  | [], _ => []
  | q :: rest, n =>
    let k := next_free_aux (aq.length + 1) aq n
    (q, St.int k) :: build_rename aq rest (k + 1)

/-- `create_different_states_names`: rename the second automaton's states to
fresh integers when the two state sets intersect, else return it as is. -/
def create_different_states_names (m fsm : FSM) : FSM :=
  if (m.Q.filter (fun q => decide (q ∈ fsm.Q))).isEmpty then fsm
  else rework_states fsm (build_rename m.Q fsm.Q 1)

/-- The component-wise merge performed by `union` after renaming: set
unions of the three state sets and dict merges of the two maps, keeping
the first automaton's alphabet (as `copy` does). -/
def merge_fsm (m fsm : FSM) : FSM :=
  { alphabet := m.alphabet,
    Q := sunion m.Q fsm.Q,
    Qi := sunion m.Qi fsm.Qi,
    Qf := sunion m.Qf fsm.Qf,
    relations := dict_merge m.relations fsm.relations,
    conditions := dict_merge m.conditions fsm.conditions }

/-- `union`: rename the second automaton apart if needed, then merge the
five components; no new transitions are added. -/
def union (m fsm0 : FSM) : FSM :=
  merge_fsm m (create_different_states_names m fsm0)

/-- What `product` produces: either an automaton, or — when the alphabets
differ — the `ValueError` object that the source *returns* (it does not
raise it, despite its docstring). -/
inductive ProdResult where
  | ok : FSM → ProdResult
  | valueErrorReturned : ProdResult
deriving DecidableEq, Repr

/-- Python `!=` on the two alphabet sets is extensional set inequality. -/
def same_alphabet (m fsm : FSM) : Bool :=
  m.alphabet.all (fun c => decide (c ∈ fsm.alphabet)) &&
  fsm.alphabet.all (fun c => decide (c ∈ m.alphabet))

/-- `itertools.product` of two state lists, each pair a 2-tuple state. -/
def pair_prod (l1 l2 : List St) : List St :=
  l1.flatMap (fun q => l2.map (fun p => St.tup [q, p]))

/-- `product`: the pairing construction.  On an alphabet mismatch the source
executes `return ValueError("Alphabets must be similar")` — the error object
becomes the return value and no exception propagates.  The second automaton
is renamed apart (locally) before pairing; the result has no final states. -/
def product (m fsm0 : FSM) : ProdResult :=
  if !same_alphabet m fsm0 then .valueErrorReturned
  else
    let fsm := create_different_states_names m fsm0
    let new_states := pair_prod m.Q fsm.Q
    let a0 : FSM :=
      { alphabet := m.alphabet, Q := new_states, Qi := [], Qf := [],
        relations := [], conditions := [] }
    let a1 := new_states.foldl (fun acc qp =>
      match qp with
      | St.tup [q, p] =>
        m.alphabet.foldl (fun acc2 letter =>
          let next_q := (get_rel m q).filter (fun state => decide (letter ∈ get_cond m q state))
          let next_p := (get_rel fsm p).filter (fun state => decide (letter ∈ get_cond fsm p state))
          (pair_prod next_q next_p).foldl
            (fun acc3 ns => add_condition_fsm acc3 qp ns letter) acc2) acc
      | _ => acc) a0
    .ok { a1 with Qi := pair_prod m.Qi fsm.Qi }

/-- `intersection`: the product, with finals the product of the two final
sets.  Note the source computes the finals from the *original* second
automaton, not the renamed copy used inside `product` — that is the defect
exposed by claim C3.  (On the error path Python would set `.Qf` on the
returned `ValueError` object and return it.) -/
def intersection (m fsm : FSM) : ProdResult :=
  match product m fsm with
  | .ok a => .ok { a with Qf := pair_prod m.Qf fsm.Qf }
  | .valueErrorReturned => .valueErrorReturned

/-- The data-model invariants of spec §3: the initial and final sets are
subsets of `Q`, every key and value in `relations`/`conditions` is a state
of `Q`, every symbol in a conditions entry belongs to the alphabet — plus
the representation invariants of Python sets and dicts (no duplicates,
unique keys).  (An `abbrev`, so that decidability is found by unfolding.) -/
abbrev WF (m : FSM) : Prop :=
  m.alphabet.Nodup ∧ m.Q.Nodup ∧ m.Qi.Nodup ∧ m.Qf.Nodup ∧
  (∀ q ∈ m.Qi, q ∈ m.Q) ∧ (∀ q ∈ m.Qf, q ∈ m.Q) ∧
  (∀ p ∈ m.relations, p.1 ∈ m.Q ∧ p.2.Nodup ∧ ∀ b ∈ p.2, b ∈ m.Q) ∧
  (m.relations.map Prod.fst).Nodup ∧
  (∀ p ∈ m.conditions, p.1.1 ∈ m.Q ∧ p.1.2 ∈ m.Q ∧ p.2.Nodup ∧ ∀ c ∈ p.2, c ∈ m.alphabet) ∧
  (m.conditions.map Prod.fst).Nodup

/-- The integer value of an atomic integer state (0 on tuples). -/
def st_int_val : St → Int
  | .int n => n
  | .tup _ => 0

/-- The bidirectional relations/conditions consistency invariant of spec §3:
a relation `a → b` exists iff `(a, b)` has a non-empty conditions entry. -/
def consistent (m : FSM) : Bool :=
  m.relations.all (fun p => p.2.all (fun b => !(get_cond m p.1 b).isEmpty)) &&
  m.conditions.all (fun p => p.2.isEmpty || exist_rel m p.1.1 p.1.2)

/-- Acceptance through a `product`/`intersection` result (`none` when the
result is the returned `ValueError` object). -/
def prod_accepts (r : ProdResult) (w : List Sym) : Option Bool :=
  match r with
  | .ok f => some (accepts f w)
  | .valueErrorReturned => none

/-! Concrete automata used as counterexamples, failing inputs and witnesses. -/

/-- Two isolated states `0`, `1` over alphabet `{"a"}`; no transitions. -/
def exM0 : FSM := ⟨["a"], [St.int 0, St.int 1], [], [], [], []⟩

/-- One state `1` (initial and final) with a loop on `"a"`: accepts `a*`. -/
def exA1 : FSM :=
  ⟨["a"], [St.int 1], [St.int 1], [St.int 1],
   [(St.int 1, [St.int 1])], [((St.int 1, St.int 1), ["a"])]⟩

/-- One state `1` (initial and final) over alphabet `{"b"}`, no transitions. -/
def exB7 : FSM := ⟨["b"], [St.int 1], [St.int 1], [St.int 1], [], []⟩

/-- Nondeterministic: initial+final state `1` with `1 -a→ 2` and `1 -a→ 3`;
accepts exactly ε. -/
def exA3 : FSM :=
  ⟨["a"], [St.int 1, St.int 2, St.int 3], [St.int 1], [St.int 1],
   [(St.int 1, [St.int 2, St.int 3])],
   [((St.int 1, St.int 2), ["a"]), ((St.int 1, St.int 3), ["a"])]⟩

/-- Deterministic and complete with TWO initial states `1`, `2`, each with a
self-loop on `"a"`; only `1` is final. -/
def exM2 : FSM :=
  ⟨["a"], [St.int 1, St.int 2], [St.int 1, St.int 2], [St.int 1],
   [(St.int 1, [St.int 1]), (St.int 2, [St.int 2])],
   [((St.int 1, St.int 1), ["a"]), ((St.int 2, St.int 2), ["a"])]⟩

/-- One state `1` (initial and final) with a loop on `"b"`: accepts `b*`. -/
def exUB : FSM :=
  ⟨["b"], [St.int 1], [St.int 1], [St.int 1],
   [(St.int 1, [St.int 1])], [((St.int 1, St.int 1), ["b"])]⟩

/-- The spec §8 worked scenario: parity of ones over `{"0","1"}`. -/
def exPar : FSM :=
  ⟨["0", "1"], [St.int 1, St.int 2], [St.int 1], [St.int 1],
   [(St.int 1, [St.int 1, St.int 2]), (St.int 2, [St.int 2, St.int 1])],
   [((St.int 1, St.int 1), ["0"]), ((St.int 1, St.int 2), ["1"]),
    ((St.int 2, St.int 2), ["0"]), ((St.int 2, St.int 1), ["1"])]⟩

/-!  Theorems.  First a library of lemmas about the set/dict encodings and
the acceptance machinery, then one theorem per claim. -/

theorem mem_sadd [DecidableEq α] {x y : α} {s : List α} :
    y ∈ sadd x s ↔ y = x ∨ y ∈ s := by
  unfold sadd
  split
  · next h =>
    refine ⟨fun hy => Or.inr hy, ?_⟩
    rintro (rfl | hy)
    · exact h
    · exact hy
  · simp [or_comm]

theorem sadd_nodup [DecidableEq α] {x : α} {s : List α} (h : s.Nodup) :
    (sadd x s).Nodup := by
  unfold sadd
  split
  · exact h
  · next hx =>
    refine List.Nodup.append h (List.nodup_singleton x) ?_
    intro a ha hax
    rw [List.mem_singleton] at hax
    subst hax
    exact hx ha

theorem mem_sunion [DecidableEq α] {s t : List α} {y : α} :
    y ∈ sunion s t ↔ y ∈ s ∨ y ∈ t := by
  induction t generalizing s with
  | nil => simp [sunion]
  | cons a t ih =>
    show y ∈ sunion (sadd a s) t ↔ _
    rw [ih, mem_sadd]
    simp only [List.mem_cons]
    tauto

theorem sunion_nodup [DecidableEq α] {s t : List α} (h : s.Nodup) :
    (sunion s t).Nodup := by
  induction t generalizing s with
  | nil => exact h
  | cons a t ih => exact ih (sadd_nodup h)

theorem mem_sset [DecidableEq α] {t : List α} {y : α} : y ∈ sset t ↔ y ∈ t := by
  unfold sset
  rw [mem_sunion]
  simp

theorem sset_nodup [DecidableEq α] {t : List α} : (sset t).Nodup :=
  sunion_nodup List.nodup_nil

theorem mem_smap [DecidableEq β] {f : α → β} {s : List α} {y : β} :
    y ∈ smap f s ↔ ∃ a ∈ s, f a = y := by
  unfold smap
  rw [mem_sset]
  simp [eq_comm]

theorem smap_nodup [DecidableEq β] {f : α → β} {s : List α} : (smap f s).Nodup :=
  sset_nodup

theorem alLookup_alUpdate_self [DecidableEq κ] (l : List (κ × ν)) (k : κ) (f : ν → ν)
    (d : ν) : alLookup (alUpdate l k f d) k = some (f ((alLookup l k).getD d)) := by
  induction l with
  | nil => simp [alUpdate, alLookup]
  | cons p rest ih =>
    obtain ⟨k', v⟩ := p
    by_cases h : k = k'
    · subst h; simp [alUpdate, alLookup]
    · simp [alUpdate, alLookup, h, ih]

theorem alLookup_alUpdate_ne [DecidableEq κ] {l : List (κ × ν)} {k k' : κ} {f : ν → ν}
    {d : ν} (h : k' ≠ k) : alLookup (alUpdate l k f d) k' = alLookup l k' := by
  induction l with
  | nil => simp [alUpdate, alLookup, h]
  | cons p rest ih =>
    obtain ⟨k0, v⟩ := p
    by_cases h0 : k = k0
    · subst h0; simp [alUpdate, alLookup, h]
    · by_cases h1 : k' = k0
      · subst h1; simp [alUpdate, alLookup, h0]
      · simp [alUpdate, alLookup, h0, h1, ih]

theorem alLookup_append [DecidableEq κ] (l1 l2 : List (κ × ν)) (k : κ) :
    alLookup (l1 ++ l2) k =
      match alLookup l1 k with
      | some v => some v
      | none => alLookup l2 k := by
  induction l1 with
  | nil => simp [alLookup]
  | cons p rest ih =>
    obtain ⟨k0, v0⟩ := p
    by_cases h : k = k0
    · subst h; simp [alLookup]
    · simp [alLookup, h, ih]

theorem alLookup_filter_none [DecidableEq κ] {b : List (κ × ν)} (a : List (κ × ν))
    {k : κ} (h : alLookup b k = none) :
    alLookup (a.filter (fun p => (alLookup b p.1).isNone)) k = alLookup a k := by
  induction a with
  | nil => rfl
  | cons p rest ih =>
    obtain ⟨k0, v0⟩ := p
    rw [List.filter_cons]
    by_cases h0 : k = k0
    · subst h0; simp [h, alLookup]
    · cases h1 : (alLookup b k0).isNone <;> simp [h1, alLookup, h0, ih]

theorem alLookup_filter_some [DecidableEq κ] {b : List (κ × ν)} (a : List (κ × ν))
    {k : κ} {v : ν} (h : alLookup b k = some v) :
    alLookup (a.filter (fun p => (alLookup b p.1).isNone)) k = none := by
  induction a with
  | nil => rfl
  | cons p rest ih =>
    obtain ⟨k0, v0⟩ := p
    rw [List.filter_cons]
    by_cases h0 : k = k0
    · subst h0; simp [h, ih]
    · cases h1 : (alLookup b k0).isNone <;> simp [h1, alLookup, h0, ih]

theorem alLookup_dict_merge [DecidableEq κ] (a b : List (κ × ν)) (k : κ) :
    alLookup (dict_merge a b) k =
      match alLookup b k with
      | some v => some v
      | none => alLookup a k := by
  unfold dict_merge
  rw [alLookup_append]
  cases h : alLookup b k with
  | some v => rw [alLookup_filter_some a h]
  | none =>
    rw [alLookup_filter_none a h]
    cases h2 : alLookup a k <;> simp [h, h2]

theorem mem_possible_path {m : FSM} {src : St} {c : Sym} {t : St} :
    t ∈ possible_path m src c ↔
      t ∈ m.Q ∧ exist_rel m src t = true ∧ c ∈ get_cond m src t := by
  unfold possible_path
  rw [List.mem_filter]
  simp [and_assoc]

theorem possible_path_subset {m : FSM} {src : St} {c : Sym} {t : St}
    (h : t ∈ possible_path m src c) : t ∈ m.Q :=
  (mem_possible_path.1 h).1

theorem any_eq_filter_not_isEmpty {l : List α} {p : α → Bool} :
    (!(l.filter p).isEmpty) = l.any p := by
  induction l with
  | nil => rfl
  | cons x xs ih =>
    rw [List.filter_cons]
    cases h : p x <;> simp [h, ih]

theorem accepts_eq_any (m : FSM) (w : List Sym) :
    accepts m w = m.Qi.any (fun src => accepts_from m w src) := by
  cases w with
  | nil =>
    show accepts_empty m = _
    unfold accepts_empty
    rw [any_eq_filter_not_isEmpty]
    rfl
  | cons c rest => rfl

theorem is_deterministic_iff {m : FSM} :
    is_deterministic m = true ↔
      ∀ s ∈ m.Q, ∀ c ∈ m.alphabet, (possible_path m s c).length ≤ 1 := by
  unfold is_deterministic
  rw [List.all_eq_true]
  constructor
  · intro h s hs c hc
    have h2 := h s hs
    rw [List.all_eq_true] at h2
    have h3 := h2 c hc
    simp only [Bool.not_eq_true', decide_eq_false_iff_not, not_le] at h3
    omega
  · intro h s hs
    rw [List.all_eq_true]
    intro c hc
    simp only [Bool.not_eq_true', decide_eq_false_iff_not, not_le]
    have := h s hs c hc
    omega

theorem is_complete_iff {m : FSM} :
    is_complete m = true ↔
      ∀ s ∈ m.Q, ∀ c ∈ m.alphabet, possible_path m s c ≠ [] := by
  unfold is_complete
  rw [List.all_eq_true]
  constructor
  · intro h s hs c hc hnil
    have h2 := h s hs
    rw [List.all_eq_true] at h2
    have h3 := h2 c hc
    rw [hnil] at h3
    simp at h3
  · intro h s hs
    rw [List.all_eq_true]
    intro c hc
    cases hpp : possible_path m s c with
    | nil => exact absurd hpp (h s hs c hc)
    | cons t rest => rfl

/-- In a deterministic and complete automaton every state/letter pair has a
unique successor, and it is a state of `Q`. -/
theorem det_complete_step {m : FSM} (hd : is_deterministic m = true)
    (hc : is_complete m = true) {s : St} (hs : s ∈ m.Q) {c : Sym}
    (hca : c ∈ m.alphabet) : ∃ t, possible_path m s c = [t] ∧ t ∈ m.Q := by
  have h1 := is_deterministic_iff.1 hd s hs c hca
  have h2 := is_complete_iff.1 hc s hs c hca
  match hpp : possible_path m s c with
  | [] => exact absurd hpp h2
  | [t] =>
    refine ⟨t, rfl, ?_⟩
    have : t ∈ possible_path m s c := by rw [hpp]; exact List.mem_singleton.2 rfl
    exact possible_path_subset this
  | t1 :: t2 :: rest => rw [hpp] at h1; simp at h1

/-- Claim C6 — the relations/conditions consistency invariant is NOT
preserved by the mutators: starting from consistent automata,
`add_relation` creates a relation with no conditions entry, and
`remove_condition` empties a conditions entry while leaving the relation in
place.  (Evaluates the code at the failing inputs.) -/
theorem c6_invariant_not_preserved :
    consistent exM0 = true ∧
    (add_relation exM0 (St.int 0) (St.int 1)).err = none ∧
    consistent (add_relation exM0 (St.int 0) (St.int 1)).fsm = false ∧
    consistent exA1 = true ∧
    consistent (remove_condition exA1 (St.int 1) (St.int 1) "a") = false := by
  decide

/-- Claim C7 — on an alphabet mismatch, `product` (and `intersection`) does
not raise: it executes `return ValueError(...)`, handing the error object
back as the result instead of propagating an exception. -/
theorem c7_alphabet_mismatch_returned (m fsm : FSM)
    (h : same_alphabet m fsm = false) :
    product m fsm = ProdResult.valueErrorReturned ∧
    intersection m fsm = ProdResult.valueErrorReturned := by
  have hp : product m fsm = ProdResult.valueErrorReturned := by
    unfold product
    rw [h]
    rfl
  exact ⟨hp, by unfold intersection; rw [hp]⟩

/-- Witness for C7 at a concrete pair with differing alphabets. -/
theorem c7_witness :
    product exA1 exB7 = ProdResult.valueErrorReturned ∧
    intersection exA1 exB7 = ProdResult.valueErrorReturned :=
  c7_alphabet_mismatch_returned exA1 exB7 (by decide)

/-- Claim C8 — `add_condition` fails with the symbol `ValueError`
(InvalidSymbol) when the condition is outside the alphabet, with the state
`ValueError` (InvalidState) when — the symbol being valid — one of the two
states is outside `Q`; `add_relation` fails with InvalidState when a state
is outside `Q`; and every failing call returns the automaton unchanged
(validation precedes any mutation). -/
theorem c8_validation_before_mutation (m : FSM) (a b : St) (c : Sym) :
    (c ∉ m.alphabet → add_condition m a b c = ⟨some .invalidSymbol, m⟩) ∧
    (c ∈ m.alphabet → a ∉ m.Q ∨ b ∉ m.Q → add_condition m a b c = ⟨some .invalidState, m⟩) ∧
    (a ∉ m.Q ∨ b ∉ m.Q → add_relation m a b = ⟨some .invalidState, m⟩) ∧
    ((add_condition m a b c).err ≠ none → (add_condition m a b c).fsm = m) ∧
    ((add_relation m a b).err ≠ none → (add_relation m a b).fsm = m) := by
  refine ⟨fun h => ?_, fun h1 h2 => ?_, fun h => ?_, ?_, ?_⟩
  · unfold add_condition; rw [if_pos h]
  · unfold add_condition; rw [if_neg (by simpa using h1), if_pos h2]
  · unfold add_relation; rw [if_pos h]
  · unfold add_condition
    by_cases h : c ∉ m.alphabet
    · rw [if_pos h]; intro; rfl
    · rw [if_neg h]
      by_cases h2 : a ∉ m.Q ∨ b ∉ m.Q
      · rw [if_pos h2]; intro; rfl
      · rw [if_neg h2]; intro hne; exact absurd rfl hne
  · unfold add_relation
    by_cases h : a ∉ m.Q ∨ b ∉ m.Q
    · rw [if_pos h]; intro; rfl
    · rw [if_neg h]; intro hne; exact absurd rfl hne

/-- Witness for C8: concrete rejected calls of each kind. -/
theorem c8_witness :
    add_condition exM0 (St.int 0) (St.int 1) "z" = ⟨some .invalidSymbol, exM0⟩ ∧
    add_condition exM0 (St.int 0) (St.int 5) "a" = ⟨some .invalidState, exM0⟩ ∧
    add_relation exM0 (St.int 0) (St.int 5) = ⟨some .invalidState, exM0⟩ :=
  ⟨(c8_validation_before_mutation exM0 (St.int 0) (St.int 1) "z").1 (by decide),
   (c8_validation_before_mutation exM0 (St.int 0) (St.int 5) "a").2.1 (by decide) (by decide),
   (c8_validation_before_mutation exM0 (St.int 0) (St.int 5) "a").2.2.1 (by decide)⟩

/-- Claim C10 — `exist_path` is reflexive (the `src == dest` test precedes
everything, including any look at the transition relation), so every
initial state is accessible and every final state is co-accessible. -/
theorem c10_exist_path_refl (m : FSM) (q : St) :
    exist_path m q q = true ∧
    (q ∈ m.Qi → is_state_accessible m q = true) ∧
    (q ∈ m.Qf → is_state_co_accessible m q = true) := by
  have hrefl : ∀ q' : St, exist_path m q' q' = true := by
    intro q'
    unfold exist_path exist_path_aux
    simp
  refine ⟨hrefl q, fun hi => ?_, fun hf => ?_⟩
  · unfold is_state_accessible
    rw [List.any_eq_true]
    exact ⟨q, hi, hrefl q⟩
  · unfold is_state_co_accessible
    rw [List.any_eq_true]
    exact ⟨q, hf, hrefl q⟩

/-- Witness for C10 at a state that is initial and final but has no
self-loop in the relation. -/
theorem c10_witness :
    is_state_accessible exB7 (St.int 1) = true ∧
    is_state_co_accessible exB7 (St.int 1) = true :=
  ⟨(c10_exist_path_refl exB7 (St.int 1)).2.1 (by decide),
   (c10_exist_path_refl exB7 (St.int 1)).2.2 (by decide)⟩

/-- Claim C1 — determinization loses the empty word: `exA3` is
nondeterministic and accepts ε, but `set_deterministic exA3` rejects ε
because the new initial composite state is never added to the final set
(the result is nonetheless deterministic and complete). -/
theorem c1_empty_word_lost :
    accepts exA3 [] = true ∧
    is_deterministic exA3 = false ∧
    accepts (set_deterministic exA3) [] = false ∧
    is_deterministic (set_deterministic exA3) = true ∧
    is_complete (set_deterministic exA3) = true := by
  refine ⟨by decide, by decide, ?_, ?_, ?_⟩ <;> decide

/-- Claim C3 — `intersection` computes its final states from the original
(un-renamed) second automaton while `product` renames it internally, so
with colliding state names the finals miss every product state: here
`exA1` accepts ε and `"a"`, but `intersection exA1 exA1` accepts neither. -/
theorem c3_intersection_finals_bug :
    accepts exA1 [] = true ∧
    accepts exA1 ["a"] = true ∧
    prod_accepts (intersection exA1 exA1) [] = some false ∧
    prod_accepts (intersection exA1 exA1) ["a"] = some false := by
  decide

theorem bool_eq_of_iff {x y : Bool} (h : x = true ↔ y = true) : x = y := by
  cases x <;> cases y <;> simp_all

theorem any_congr_mem {l : List α} {f g : α → Bool} (h : ∀ a ∈ l, f a = g a) :
    l.any f = l.any g := by
  induction l with
  | nil => rfl
  | cons x xs ih =>
    simp only [List.any_cons]
    rw [h x (List.mem_cons_self x xs), ih (fun a ha => h a (List.mem_cons_of_mem x ha))]

theorem alLookup_mem [DecidableEq κ] {l : List (κ × ν)} {k : κ} {v : ν}
    (h : alLookup l k = some v) : (k, v) ∈ l := by
  induction l with
  | nil => simp [alLookup] at h
  | cons p rest ih =>
    obtain ⟨k0, v0⟩ := p
    unfold alLookup at h
    by_cases h0 : k = k0
    · subst h0
      rw [if_pos rfl] at h
      injection h with h
      subst h
      exact List.mem_cons_self _ _
    · rw [if_neg h0] at h
      exact List.mem_cons_of_mem _ (ih h)

theorem exist_rel_iff {m : FSM} {a b : St} : exist_rel m a b = true ↔ b ∈ get_rel m a := by
  simp [exist_rel]

theorem sadd_of_mem [DecidableEq α] {x : α} {s : List α} (h : x ∈ s) : sadd x s = s := by
  unfold sadd
  rw [if_pos h]

theorem get_cond_subset_alphabet {m : FSM} (hwf : WF m) {a b : St} {c : Sym}
    (h : c ∈ get_cond m a b) : c ∈ m.alphabet := by
  obtain ⟨-, -, -, -, -, -, -, -, hcond, -⟩ := hwf
  unfold get_cond at h
  cases hl : alLookup m.conditions (a, b) with
  | none => rw [hl] at h; simp at h
  | some cs =>
    rw [hl] at h
    exact (hcond _ (alLookup_mem hl)).2.2.2 c h

theorem mem_create_table {m : FSM} {a : St} {c : Sym} {b : St} :
    (a, c, b) ∈ create_table m ↔
      a ∈ m.Q ∧ b ∈ m.Q ∧ exist_rel m a b = true ∧ c ∈ get_cond m a b := by
  unfold create_table
  constructor
  · intro h
    obtain ⟨a', ha', h2⟩ := List.mem_flatMap.1 h
    obtain ⟨b', hb', h3⟩ := List.mem_flatMap.1 h2
    by_cases hrel : exist_rel m a' b'
    · rw [if_pos hrel] at h3
      obtain ⟨c', hc', heq⟩ := List.mem_map.1 h3
      obtain ⟨rfl, rfl, rfl⟩ : a' = a ∧ c' = c ∧ b' = b := by
        refine ⟨congrArg Prod.fst heq, ?_, ?_⟩
        · have := congrArg Prod.snd heq; exact congrArg Prod.fst this
        · have := congrArg Prod.snd heq; exact congrArg Prod.snd this
      exact ⟨ha', hb', hrel, hc'⟩
    · rw [if_neg hrel] at h3
      simp at h3
  · rintro ⟨ha, hb, hrel, hc⟩
    refine List.mem_flatMap.2 ⟨a, ha, List.mem_flatMap.2 ⟨b, hb, ?_⟩⟩
    rw [if_pos hrel]
    exact List.mem_map.2 ⟨c, hc, rfl⟩

theorem add_condition_fields (m : FSM) (a b : St) (c : Sym) :
    (add_condition m a b c).fsm.alphabet = m.alphabet ∧
    (add_condition m a b c).fsm.Q = m.Q ∧
    (add_condition m a b c).fsm.Qi = m.Qi ∧
    (add_condition m a b c).fsm.Qf = m.Qf := by
  by_cases h1 : c ∉ m.alphabet
  · simp [add_condition, h1]
  · by_cases h2 : a ∉ m.Q ∨ b ∉ m.Q
    · simp [add_condition, h1, h2]
    · by_cases h3 : exist_rel m a b <;>
        simp [add_condition, add_relation_raw, h1, h2, h3]

theorem add_condition_relations {m : FSM} {a b : St} {c : Sym} (hc : c ∈ m.alphabet)
    (ha : a ∈ m.Q) (hb : b ∈ m.Q) :
    (add_condition m a b c).fsm.relations =
      (if exist_rel m a b then m.relations else (add_relation_raw m a b).relations) := by
  unfold add_condition
  rw [if_neg (not_not_intro hc), if_neg (by push_neg; exact ⟨ha, hb⟩)]
  by_cases hrel : exist_rel m a b <;> simp [hrel]

theorem add_condition_conditions {m : FSM} {a b : St} {c : Sym} (hc : c ∈ m.alphabet)
    (ha : a ∈ m.Q) (hb : b ∈ m.Q) :
    (add_condition m a b c).fsm.conditions =
      alUpdate m.conditions (a, b) (fun s => sadd c s) [] := by
  unfold add_condition
  rw [if_neg (not_not_intro hc), if_neg (by push_neg; exact ⟨ha, hb⟩)]
  by_cases hrel : exist_rel m a b <;> simp [hrel, add_relation_raw]

theorem get_rel_add_relation_raw (m : FSM) (a b : St) (x : St) :
    get_rel (add_relation_raw m a b) x =
      if x = a then sadd b (get_rel m a) else get_rel m x := by
  unfold add_relation_raw get_rel
  by_cases h : x = a
  · subst h
    rw [alLookup_alUpdate_self]
    simp
  · rw [alLookup_alUpdate_ne h]
    simp [h]

theorem get_rel_eq_of_relations {m1 m2 : FSM} (h : m1.relations = m2.relations)
    (x : St) : get_rel m1 x = get_rel m2 x := by
  unfold get_rel
  rw [h]

theorem get_rel_add_condition {m : FSM} {a b : St} {c : Sym} (hc : c ∈ m.alphabet)
    (ha : a ∈ m.Q) (hb : b ∈ m.Q) (x : St) :
    get_rel (add_condition m a b c).fsm x =
      if x = a then sadd b (get_rel m a) else get_rel m x := by
  have hr := add_condition_relations hc ha hb (c := c)
  by_cases hrel : exist_rel m a b
  · rw [if_pos hrel] at hr
    rw [get_rel_eq_of_relations hr]
    by_cases hx : x = a
    · subst hx
      rw [if_pos rfl, sadd_of_mem (exist_rel_iff.1 hrel)]
    · rw [if_neg hx]
  · rw [if_neg hrel] at hr
    rw [get_rel_eq_of_relations hr, get_rel_add_relation_raw]

theorem get_cond_add_condition {m : FSM} {a b : St} {c : Sym} (hc : c ∈ m.alphabet)
    (ha : a ∈ m.Q) (hb : b ∈ m.Q) (x y : St) :
    get_cond (add_condition m a b c).fsm x y =
      if (x, y) = (a, b) then sadd c (get_cond m a b) else get_cond m x y := by
  have hcnd := add_condition_conditions hc ha hb (c := c)
  unfold get_cond
  rw [hcnd]
  by_cases hxy : (x, y) = (a, b)
  · rw [hxy, alLookup_alUpdate_self, if_pos rfl]
    simp
  · rw [alLookup_alUpdate_ne hxy, if_neg hxy]

/-- The one-step transition characterization of a validated `add_condition`
call, on an automaton where conditions imply relations. -/
theorem trans_add_condition {m : FSM} {a b : St} {c : Sym}
    (inv : ∀ x y d, d ∈ get_cond m x y → exist_rel m x y = true)
    (hc : c ∈ m.alphabet) (ha : a ∈ m.Q) (hb : b ∈ m.Q) (x y : St) (d : Sym) :
    (exist_rel (add_condition m a b c).fsm x y = true ∧
      d ∈ get_cond (add_condition m a b c).fsm x y) ↔
    ((exist_rel m x y = true ∧ d ∈ get_cond m x y) ∨ (x = a ∧ y = b ∧ d = c)) := by
  have L : ∀ (M : FSM) (x y : St) (d : Sym),
      (exist_rel M x y = true ∧ d ∈ get_cond M x y) ↔
        (y ∈ get_rel M x ∧ d ∈ get_cond M x y) := fun M x y d => by rw [exist_rel_iff]
  rw [L, L, get_rel_add_condition hc ha hb, get_cond_add_condition hc ha hb]
  by_cases hx : x = a
  · subst hx
    by_cases hy : y = b
    · subst hy
      rw [if_pos rfl, if_pos rfl]
      constructor
      · rintro ⟨-, hd⟩
        rcases mem_sadd.1 hd with rfl | hd2
        · exact Or.inr ⟨rfl, rfl, rfl⟩
        · exact Or.inl ⟨exist_rel_iff.1 (inv x y d hd2), hd2⟩
      · rintro (⟨hrel, hd⟩ | ⟨-, -, rfl⟩)
        · exact ⟨mem_sadd.2 (Or.inl rfl), mem_sadd.2 (Or.inr hd)⟩
        · exact ⟨mem_sadd.2 (Or.inl rfl), mem_sadd.2 (Or.inl rfl)⟩
    · rw [if_pos rfl, if_neg (by simp [hy])]
      constructor
      · rintro ⟨hrel, hd⟩
        rcases mem_sadd.1 hrel with rfl | h2
        · exact absurd rfl hy
        · exact Or.inl ⟨h2, hd⟩
      · rintro (⟨hrel, hd⟩ | ⟨-, hyb, -⟩)
        · exact ⟨mem_sadd.2 (Or.inr hrel), hd⟩
        · exact absurd hyb hy
  · rw [if_neg hx, if_neg (by simp [hx])]
    constructor
    · rintro ⟨h1, h2⟩
      exact Or.inl ⟨h1, h2⟩
    · rintro (⟨h1, h2⟩ | ⟨hxa, -, -⟩)
      · exact ⟨h1, h2⟩
      · exact absurd hxa hx

/-- A validated `add_condition` preserves "every condition has its
relation". -/
theorem inv_add_condition {m : FSM} {a b : St} {c : Sym}
    (inv : ∀ x y d, d ∈ get_cond m x y → exist_rel m x y = true)
    (hc : c ∈ m.alphabet) (ha : a ∈ m.Q) (hb : b ∈ m.Q) :
    ∀ x y d, d ∈ get_cond (add_condition m a b c).fsm x y →
      exist_rel (add_condition m a b c).fsm x y = true := by
  intro x y d hd
  rw [get_cond_add_condition hc ha hb] at hd
  rw [exist_rel_iff, get_rel_add_condition hc ha hb]
  by_cases hxy : (x, y) = (a, b)
  · obtain ⟨rfl, rfl⟩ := Prod.ext_iff.1 hxy
    rw [if_pos rfl]
    exact mem_sadd.2 (Or.inl rfl)
  · rw [if_neg hxy] at hd
    have hrel := exist_rel_iff.1 (inv x y d hd)
    by_cases hx : x = a
    · subst hx
      rw [if_pos rfl]
      exact mem_sadd.2 (Or.inr hrel)
    · rw [if_neg hx]
      exact hrel

theorem load_fold_fields : ∀ (l : List (St × Sym × St)) (m : FSM),
    (load_fold m l).alphabet = m.alphabet ∧ (load_fold m l).Q = m.Q ∧
    (load_fold m l).Qi = m.Qi ∧ (load_fold m l).Qf = m.Qf := by
  intro l
  induction l with
  | nil => exact fun m => ⟨rfl, rfl, rfl, rfl⟩
  | cons t rest ih =>
    intro m
    obtain ⟨src, label, dest⟩ := t
    obtain ⟨h1, h2, h3, h4⟩ := ih (add_condition m src dest label).fsm
    obtain ⟨g1, g2, g3, g4⟩ := add_condition_fields m src dest label
    exact ⟨h1.trans g1, h2.trans g2, h3.trans g3, h4.trans g4⟩

/-- `load_table` on an everywhere-valid table raises nothing and returns
the pure fold. -/
theorem load_table_ok : ∀ (table : List (St × Sym × St)) (m : FSM),
    (∀ t ∈ table, t.2.1 ∈ m.alphabet ∧ t.1 ∈ m.Q ∧ t.2.2 ∈ m.Q) →
    load_table m table = .ok (load_fold m table) := by
  intro table
  induction table with
  | nil => intro m _; rfl
  | cons t rest ih =>
    intro m h
    obtain ⟨src, label, dest⟩ := t
    obtain ⟨hl, hs, hd2⟩ := h _ (List.mem_cons_self _ _)
    have herr : (add_condition m src dest label).err = none := by
      unfold add_condition
      rw [if_neg (not_not_intro hl), if_neg (by push_neg; exact ⟨hs, hd2⟩)]
    have h' : ∀ t ∈ rest, t.2.1 ∈ (add_condition m src dest label).fsm.alphabet ∧
        t.1 ∈ (add_condition m src dest label).fsm.Q ∧
        t.2.2 ∈ (add_condition m src dest label).fsm.Q := by
      intro t ht
      obtain ⟨g1, g2, -, -⟩ := add_condition_fields m src dest label
      rw [g1, g2]
      exact h t (List.mem_cons_of_mem _ ht)
    have hrec := ih _ h'
    simp only [load_table, herr]
    exact hrec

/-- Transition content of the loading fold: exactly the base transitions
plus the table entries. -/
theorem load_fold_trans : ∀ (l : List (St × Sym × St)) (m : FSM),
    (∀ t ∈ l, t.2.1 ∈ m.alphabet ∧ t.1 ∈ m.Q ∧ t.2.2 ∈ m.Q) →
    (∀ x y d, d ∈ get_cond m x y → exist_rel m x y = true) →
    ∀ x y d,
      (exist_rel (load_fold m l) x y = true ∧ d ∈ get_cond (load_fold m l) x y) ↔
      ((exist_rel m x y = true ∧ d ∈ get_cond m x y) ∨ (x, d, y) ∈ l) := by
  intro l
  induction l with
  | nil => intro m _ _ x y d; simp [load_fold]
  | cons t rest ih =>
    intro m hval inv x y d
    obtain ⟨src, label, dest⟩ := t
    obtain ⟨hl, hs, hd2⟩ := hval _ (List.mem_cons_self _ _)
    have hval' : ∀ t ∈ rest, t.2.1 ∈ (add_condition m src dest label).fsm.alphabet ∧
        t.1 ∈ (add_condition m src dest label).fsm.Q ∧
        t.2.2 ∈ (add_condition m src dest label).fsm.Q := by
      intro t ht
      obtain ⟨g1, g2, -, -⟩ := add_condition_fields m src dest label
      rw [g1, g2]
      exact hval t (List.mem_cons_of_mem _ ht)
    have inv' := inv_add_condition inv hl hs hd2
    have hrec := ih _ hval' inv' x y d
    show (exist_rel (load_fold (add_condition m src dest label).fsm rest) x y = true ∧
      d ∈ get_cond (load_fold (add_condition m src dest label).fsm rest) x y) ↔ _
    rw [hrec, trans_add_condition inv hl hs hd2 x y d]
    simp only [List.mem_cons, Prod.ext_iff]
    constructor
    · rintro ((h | ⟨h1, h2, h3⟩) | h)
      · exact Or.inl h
      · exact Or.inr (Or.inl ⟨h1, h3, h2⟩)
      · exact Or.inr (Or.inr h)
    · rintro (h | (⟨h1, h2, h3⟩ | h))
      · exact Or.inl (Or.inl h)
      · exact Or.inl (Or.inr ⟨h1, h3, h2⟩)
      · exact Or.inr h

theorem create_table_valid {m : FSM} (hwf : WF m) :
    ∀ t ∈ create_table m, t.2.1 ∈ m.alphabet ∧ t.1 ∈ m.Q ∧ t.2.2 ∈ m.Q := by
  intro t ht
  obtain ⟨a, c, b⟩ := t
  rw [mem_create_table] at ht
  obtain ⟨ha, hb, hrel, hc⟩ := ht
  exact ⟨get_cond_subset_alphabet hwf hc, ha, hb⟩

theorem round_trip_possible_path {m : FSM} (hwf : WF m) {s : St} (hs : s ∈ m.Q)
    (c : Sym) :
    possible_path (load_fold (⟨m.alphabet, m.Q, m.Qi, m.Qf, [], []⟩ : FSM)
        (create_table m)) s c = possible_path m s c := by
  have hbase_inv : ∀ x y d,
      d ∈ get_cond (⟨m.alphabet, m.Q, m.Qi, m.Qf, [], []⟩ : FSM) x y →
        exist_rel (⟨m.alphabet, m.Q, m.Qi, m.Qf, [], []⟩ : FSM) x y = true := by
    intro x y d hd
    simp [get_cond, alLookup] at hd
  have htrans := load_fold_trans (create_table m) ⟨m.alphabet, m.Q, m.Qi, m.Qf, [], []⟩
    (create_table_valid hwf) hbase_inv
  have hQ : (load_fold (⟨m.alphabet, m.Q, m.Qi, m.Qf, [], []⟩ : FSM)
      (create_table m)).Q = m.Q := (load_fold_fields _ _).2.1
  unfold possible_path
  rw [hQ]
  apply List.filter_congr
  intro t ht
  apply bool_eq_of_iff
  simp only [Bool.and_eq_true, decide_eq_true_iff]
  rw [htrans s t c, mem_create_table]
  constructor
  · rintro (⟨hrel, -⟩ | ⟨-, -, hrel, hcnd⟩)
    · simp [exist_rel, get_rel, alLookup] at hrel
    · exact ⟨hrel, hcnd⟩
  · rintro ⟨hrel, hcnd⟩
    exact Or.inr ⟨hs, ht, hrel, hcnd⟩

theorem round_trip_accepts_from {m : FSM} (hwf : WF m) :
    ∀ (w : List Sym), ∀ s ∈ m.Q,
      accepts_from (load_fold (⟨m.alphabet, m.Q, m.Qi, m.Qf, [], []⟩ : FSM)
        (create_table m)) w s = accepts_from m w s := by
  intro w
  induction w with
  | nil =>
    intro s _
    show decide (s ∈ _) = decide (s ∈ m.Qf)
    rw [(load_fold_fields _ _).2.2.2]
  | cons c rest ih =>
    intro s hs
    simp only [accepts_from, round_trip_possible_path hwf hs c]
    exact any_congr_mem (fun t ht => ih t (possible_path_subset ht))

/-- Claim C9 — round trip: loading `create_table A` into a fresh automaton
with the same alphabet, states, initials and finals succeeds (no exception)
and yields an automaton accepting exactly the words `A` accepts, for every
automaton satisfying the spec §3 data-model invariants. -/
theorem c9_round_trip (m : FSM) (hwf : WF m) :
    ∃ b, mk_fsm m.alphabet m.Q m.Qi m.Qf (create_table m) = Except.ok b ∧
      ∀ w, accepts b w = accepts m w := by
  refine ⟨load_fold (⟨m.alphabet, m.Q, m.Qi, m.Qf, [], []⟩ : FSM) (create_table m),
    load_table_ok _ _ (create_table_valid hwf), ?_⟩
  intro w
  rw [accepts_eq_any, accepts_eq_any, (load_fold_fields _ _).2.2.1]
  have hQiQ : ∀ q ∈ m.Qi, q ∈ m.Q := hwf.2.2.2.2.1
  exact any_congr_mem (fun s hsQi => round_trip_accepts_from hwf w s (hQiQ s hsQi))

/-- Witness for C9 on the spec §8 parity automaton. -/
theorem c9_witness :
    (mk_fsm exPar.alphabet exPar.Q exPar.Qi exPar.Qf (create_table exPar)).map
      (fun b => (accepts b ["1", "0", "1"], accepts b ["1"])) =
      Except.ok (accepts exPar ["1", "0", "1"], accepts exPar ["1"]) := by
  obtain ⟨b, h1, h2⟩ := c9_round_trip exPar (by decide)
  rw [h1, Except.map, h2, h2]

/-- On a deterministic and complete automaton, `complementary` takes the
copy branch and only replaces the final set by its relative complement. -/
theorem complementary_of_det_complete {m : FSM} (hd : is_deterministic m = true)
    (hc : is_complete m = true) :
    complementary m = { m with Qf := m.Q.filter (fun q => decide (q ∉ m.Qf)) } := by
  unfold complementary
  rw [hd, hc]
  rfl

/-- `possible_path` does not look at the final-state set. -/
theorem possible_path_set_Qf (m : FSM) (x : List St) (s : St) (c : Sym) :
    possible_path { m with Qf := x } s c = possible_path m s c := rfl

/-- Swapping the final set flips `accepts_from` on deterministic, complete
automata, for every state of `Q` and every word over the alphabet. -/
theorem comp_accepts_from {m : FSM} (hd : is_deterministic m = true)
    (hc : is_complete m = true) :
    ∀ (w : List Sym), (∀ c ∈ w, c ∈ m.alphabet) → ∀ s ∈ m.Q,
      accepts_from { m with Qf := m.Q.filter (fun q => decide (q ∉ m.Qf)) } w s
        = !accepts_from m w s := by
  intro w
  induction w with
  | nil =>
    intro _ s hs
    show decide (s ∈ m.Q.filter fun q => decide (q ∉ m.Qf)) = !decide (s ∈ m.Qf)
    by_cases hf : s ∈ m.Qf <;> simp [List.mem_filter, hs, hf]
  | cons c rest ih =>
    intro hw s hs
    have hca : c ∈ m.alphabet := hw c (List.mem_cons_self c rest)
    obtain ⟨t, hpp, ht⟩ := det_complete_step hd hc hs hca
    simp only [accepts_from, possible_path_set_Qf, hpp, List.any_cons, List.any_nil,
      Bool.or_false]
    exact ih (fun x hx => hw x (List.mem_cons_of_mem c hx)) t ht

/-- Claim C2, amended: complementation flips acceptance for every automaton
that is deterministic (per `is_deterministic`), complete (per
`is_complete`), satisfies the spec §3 data-model invariants, and has
EXACTLY ONE initial state, on every word over the alphabet.  (The
counterexample below shows the one-initial-state restriction is needed.) -/
theorem c2_complement_flips (m : FSM) (hwf : WF m) (hd : is_deterministic m = true)
    (hc : is_complete m = true) (i : St) (hqi : m.Qi = [i])
    (w : List Sym) (hw : ∀ c ∈ w, c ∈ m.alphabet) :
    accepts (complementary m) w = !accepts m w := by
  obtain ⟨-, -, -, -, hQiQ, -⟩ := hwf
  have hiQ : i ∈ m.Q := hQiQ i (by rw [hqi]; exact List.mem_singleton_self i)
  rw [complementary_of_det_complete hd hc, accepts_eq_any, accepts_eq_any]
  set mc : FSM := { m with Qf := m.Q.filter (fun q => decide (q ∉ m.Qf)) } with hmc
  have h1 : mc.Qi = [i] := hqi
  rw [h1]
  simp only [List.any_cons, List.any_nil, Bool.or_false]
  exact comp_accepts_from hd hc w hw i hiQ

/-- Witness for the amended C2, on the spec §8 parity automaton: the
complement accepts the word `"1"` that the automaton rejects. -/
theorem c2_witness : accepts (complementary exPar) ["1"] = !accepts exPar ["1"] :=
  c2_complement_flips exPar (by decide) (by decide) (by decide) (St.int 1) rfl
    ["1"] (by decide)

theorem wf_rel_value {m : FSM} (hwf : WF m) {x y : St} (h : y ∈ get_rel m x) :
    y ∈ m.Q := by
  unfold get_rel at h
  cases hl : alLookup m.relations x with
  | none => rw [hl] at h; simp at h
  | some l =>
    rw [hl] at h
    exact (hwf.2.2.2.2.2.2.1 _ (alLookup_mem hl)).2.2 y h

theorem sunion_eq_append_of_nodup [DecidableEq α] :
    ∀ (l s : List α), s.Nodup → l.Nodup → (∀ x ∈ l, x ∉ s) → sunion s l = s ++ l := by
  intro l
  induction l with
  | nil => intro s _ _ _; simp [sunion]
  | cons x xs ih =>
    intro s hs hl hdisj
    have hx : x ∉ s := hdisj x (List.mem_cons_self _ _)
    have hstep : sunion s (x :: xs) = sunion (s ++ [x]) xs := by
      show sunion (sadd x s) xs = _
      rw [show sadd x s = s ++ [x] by unfold sadd; rw [if_neg hx]]
    rw [hstep, ih (s ++ [x])]
    · simp
    · refine List.Nodup.append hs (List.nodup_singleton x) ?_
      intro a ha hax
      rw [List.mem_singleton] at hax
      subst hax
      exact hx ha
    · exact hl.of_cons
    · intro y hy hmem
      rcases List.mem_append.1 hmem with h | h
      · exact hdisj y (List.mem_cons_of_mem _ hy) h
      · rw [List.mem_singleton] at h
        subst h
        exact (List.nodup_cons.1 hl).1 hy

theorem sset_eq_self [DecidableEq α] {l : List α} (h : l.Nodup) : sset l = l := by
  unfold sset
  rw [sunion_eq_append_of_nodup l [] List.nodup_nil h (by simp)]
  simp

theorem smap_eq_map [DecidableEq β] {f : α → β} {l : List α}
    (h : (l.map f).Nodup) : smap f l = l.map f := by
  unfold smap
  exact sset_eq_self h

theorem filter_of_map {f : α → β} {p : β → Bool} :
    ∀ l : List α, (l.map f).filter p = (l.filter (fun a => p (f a))).map f := by
  intro l
  induction l with
  | nil => rfl
  | cons x xs ih =>
    rw [List.map_cons, List.filter_cons, List.filter_cons]
    cases h : p (f x) <;> simp [h, ih]

theorem alLookup_map_gen {κ κ' ν ν' : Type} [DecidableEq κ] [DecidableEq κ']
    (F : κ → κ') (g : ν → ν') (s : κ) :
    ∀ (l : List (κ × ν)), (∀ p ∈ l, F p.1 = F s → p.1 = s) →
      alLookup (l.map (fun p => (F p.1, g p.2))) (F s) = (alLookup l s).map g := by
  intro l
  induction l with
  | nil => intro _; rfl
  | cons p rest ih =>
    intro hinj
    obtain ⟨k, v⟩ := p
    by_cases hks : s = k
    · subst hks
      simp [alLookup]
    · have hFk : ¬ (F s = F k) := by
        intro h
        exact hks ((hinj (k, v) (List.mem_cons_self _ _) h.symm)).symm
      show (if F s = F k then some (g v) else _) = _
      rw [if_neg hFk]
      show _ = (if s = k then some v else alLookup rest s).map g
      rw [if_neg hks]
      exact ih (fun p hp h => hinj p (List.mem_cons_of_mem _ hp) h)

theorem alLookup_none_of_keys {κ ν : Type} [DecidableEq κ] {P : κ → Prop}
    {l : List (κ × ν)} {x : κ} (hall : ∀ p ∈ l, P p.1) (hx : ¬ P x) :
    alLookup l x = none := by
  cases h : alLookup l x with
  | none => rfl
  | some v => exact absurd (hall _ (alLookup_mem h)) hx

theorem get_rel_rework {B : FSM} {d : List (St × St)} (hwf : WF B)
    (hinj : ∀ a ∈ B.Q, ∀ b ∈ B.Q, apply_map d a = apply_map d b → a = b)
    {s : St} (hs : s ∈ B.Q) :
    get_rel (rework_states B d) (apply_map d s) =
      smap (apply_map d) (get_rel B s) := by
  have hkey : ∀ p ∈ B.relations, apply_map d p.1 = apply_map d s → p.1 = s :=
    fun p hp hF => hinj p.1 (hwf.2.2.2.2.2.2.1 p hp).1 s hs hF
  have hlk : alLookup (rework_states B d).relations (apply_map d s) =
      (alLookup B.relations s).map (smap (apply_map d)) :=
    alLookup_map_gen (apply_map d) (smap (apply_map d)) s B.relations hkey
  unfold get_rel
  rw [hlk]
  cases h : alLookup B.relations s with
  | none => simp [show smap (apply_map d) [] = [] from rfl]
  | some l => simp

theorem get_cond_rework {B : FSM} {d : List (St × St)} (hwf : WF B)
    (hinj : ∀ a ∈ B.Q, ∀ b ∈ B.Q, apply_map d a = apply_map d b → a = b)
    {a b : St} (ha : a ∈ B.Q) (hb : b ∈ B.Q) :
    get_cond (rework_states B d) (apply_map d a) (apply_map d b) = get_cond B a b := by
  have hkey : ∀ p ∈ B.conditions,
      (fun k : St × St => (apply_map d k.1, apply_map d k.2)) p.1 =
        (fun k : St × St => (apply_map d k.1, apply_map d k.2)) (a, b) → p.1 = (a, b) := by
    intro p hp hF
    obtain ⟨h1, h2⟩ := Prod.ext_iff.1 hF
    have hc := hwf.2.2.2.2.2.2.2.2.1 p hp
    exact Prod.ext_iff.2 ⟨hinj p.1.1 hc.1 a ha h1, hinj p.1.2 hc.2.1 b hb h2⟩
  have hlk : alLookup (rework_states B d).conditions (apply_map d a, apply_map d b) =
      (alLookup B.conditions (a, b)).map id :=
    alLookup_map_gen (κ := St × St)
      (fun k : St × St => (apply_map d k.1, apply_map d k.2)) id (a, b)
      B.conditions hkey
  unfold get_cond
  rw [hlk]
  cases h : alLookup B.conditions (a, b) <;> simp

theorem rework_Q_map {B : FSM} {d : List (St × St)} (hwf : WF B)
    (hinj : ∀ a ∈ B.Q, ∀ b ∈ B.Q, apply_map d a = apply_map d b → a = b) :
    (rework_states B d).Q = B.Q.map (apply_map d) :=
  smap_eq_map (List.Nodup.map_on (fun x hx y hy h => hinj x hx y hy h) hwf.2.1)

theorem possible_path_rework {B : FSM} {d : List (St × St)} (hwf : WF B)
    (hinj : ∀ a ∈ B.Q, ∀ b ∈ B.Q, apply_map d a = apply_map d b → a = b)
    {s : St} (hs : s ∈ B.Q) (c : Sym) :
    possible_path (rework_states B d) (apply_map d s) c =
      (possible_path B s c).map (apply_map d) := by
  unfold possible_path
  rw [show (rework_states B d).Q = smap (apply_map d) B.Q from rfl,
    smap_eq_map (List.Nodup.map_on (fun x hx y hy h => hinj x hx y hy h) hwf.2.1),
    filter_of_map]
  congr 1
  apply List.filter_congr
  intro t ht
  apply bool_eq_of_iff
  simp only [Bool.and_eq_true, decide_eq_true_iff]
  constructor
  · rintro ⟨h1, h2⟩
    rw [exist_rel_iff, get_rel_rework hwf hinj hs, mem_smap] at h1
    obtain ⟨a, haRel, haEq⟩ := h1
    have haQ : a ∈ B.Q := wf_rel_value hwf haRel
    have hat : a = t := hinj a haQ t ht haEq
    subst hat
    rw [get_cond_rework hwf hinj hs ht] at h2
    exact ⟨exist_rel_iff.2 haRel, h2⟩
  · rintro ⟨h1, h2⟩
    refine ⟨?_, ?_⟩
    · rw [exist_rel_iff, get_rel_rework hwf hinj hs, mem_smap]
      exact ⟨t, exist_rel_iff.1 h1, rfl⟩
    · rw [get_cond_rework hwf hinj hs ht]
      exact h2

theorem accepts_from_rework {B : FSM} {d : List (St × St)} (hwf : WF B)
    (hinj : ∀ a ∈ B.Q, ∀ b ∈ B.Q, apply_map d a = apply_map d b → a = b) :
    ∀ w, ∀ s ∈ B.Q,
      accepts_from (rework_states B d) w (apply_map d s) = accepts_from B w s := by
  intro w
  induction w with
  | nil =>
    intro s hs
    show decide (apply_map d s ∈ smap (apply_map d) B.Qf) = decide (s ∈ B.Qf)
    apply bool_eq_of_iff
    simp only [decide_eq_true_iff]
    rw [mem_smap]
    constructor
    · rintro ⟨a, haQf, haEq⟩
      have : a = s := hinj a (hwf.2.2.2.2.2.1 a haQf) s hs haEq
      subst this
      exact haQf
    · intro h
      exact ⟨s, h, rfl⟩
  | cons c rest ih =>
    intro s hs
    simp only [accepts_from]
    rw [possible_path_rework hwf hinj hs c, List.any_map]
    apply any_congr_mem
    intro t ht
    exact ih t (possible_path_subset ht)

/-- Renaming by a map injective on the states preserves the accepted
language. -/
theorem accepts_rework {B : FSM} {d : List (St × St)} (hwf : WF B)
    (hinj : ∀ a ∈ B.Q, ∀ b ∈ B.Q, apply_map d a = apply_map d b → a = b)
    (w : List Sym) : accepts (rework_states B d) w = accepts B w := by
  rw [accepts_eq_any, accepts_eq_any]
  show (smap (apply_map d) B.Qi).any _ = _
  rw [smap_eq_map (List.Nodup.map_on
      (fun x hx y hy h => hinj x (hwf.2.2.2.2.1 x hx) y (hwf.2.2.2.2.1 y hy) h)
      hwf.2.2.1),
    List.any_map]
  apply any_congr_mem
  intro s hs
  exact accepts_from_rework hwf hinj w s (hwf.2.2.2.2.1 s hs)

/-- Renaming by an injective map preserves the data-model invariants. -/
theorem wf_rework {B : FSM} {d : List (St × St)} (hwf : WF B)
    (hinj : ∀ a ∈ B.Q, ∀ b ∈ B.Q, apply_map d a = apply_map d b → a = b) :
    WF (rework_states B d) := by
  obtain ⟨hal, hQ, hQi, hQf, hQiQ, hQfQ, hrel, hrelk, hcond, hcondk⟩ := hwf
  refine ⟨hal, smap_nodup, smap_nodup, smap_nodup, ?_, ?_, ?_, ?_, ?_, ?_⟩
  · intro q hq
    rw [show (rework_states B d).Qi = smap (apply_map d) B.Qi from rfl, mem_smap] at hq
    obtain ⟨a, haQi, rfl⟩ := hq
    rw [show (rework_states B d).Q = smap (apply_map d) B.Q from rfl, mem_smap]
    exact ⟨a, hQiQ a haQi, rfl⟩
  · intro q hq
    rw [show (rework_states B d).Qf = smap (apply_map d) B.Qf from rfl, mem_smap] at hq
    obtain ⟨a, haQf, rfl⟩ := hq
    rw [show (rework_states B d).Q = smap (apply_map d) B.Q from rfl, mem_smap]
    exact ⟨a, hQfQ a haQf, rfl⟩
  · intro p hp
    obtain ⟨p0, hp0, rfl⟩ := List.mem_map.1 hp
    refine ⟨?_, smap_nodup, ?_⟩
    · show apply_map d p0.1 ∈ smap (apply_map d) B.Q
      rw [mem_smap]
      exact ⟨p0.1, (hrel p0 hp0).1, rfl⟩
    · intro b hb
      change b ∈ smap (apply_map d) p0.2 at hb
      rw [mem_smap] at hb
      obtain ⟨a, haMem, rfl⟩ := hb
      show apply_map d a ∈ smap (apply_map d) B.Q
      rw [mem_smap]
      exact ⟨a, (hrel p0 hp0).2.2 a haMem, rfl⟩
  · have heq : ((rework_states B d).relations.map Prod.fst)
        = (B.relations.map Prod.fst).map (apply_map d) := by
      show ((B.relations.map
        (fun p => (apply_map d p.1, smap (apply_map d) p.2))).map Prod.fst) = _
      rw [List.map_map, List.map_map]
      rfl
    rw [heq]
    apply List.Nodup.map_on ?_ hrelk
    intro x hx y hy hEq
    obtain ⟨p1, hp1, rfl⟩ := List.mem_map.1 hx
    obtain ⟨p2, hp2, rfl⟩ := List.mem_map.1 hy
    exact hinj _ (hrel p1 hp1).1 _ (hrel p2 hp2).1 hEq
  · intro p hp
    obtain ⟨p0, hp0, rfl⟩ := List.mem_map.1 hp
    obtain ⟨h1, h2, h3, h4⟩ := hcond p0 hp0
    refine ⟨?_, ?_, h3, h4⟩
    · show apply_map d p0.1.1 ∈ smap (apply_map d) B.Q
      rw [mem_smap]
      exact ⟨p0.1.1, h1, rfl⟩
    · show apply_map d p0.1.2 ∈ smap (apply_map d) B.Q
      rw [mem_smap]
      exact ⟨p0.1.2, h2, rfl⟩
  · have heq : ((rework_states B d).conditions.map Prod.fst)
        = (B.conditions.map Prod.fst).map
            (fun k : St × St => (apply_map d k.1, apply_map d k.2)) := by
      show ((B.conditions.map
        (fun p => ((apply_map d p.1.1, apply_map d p.1.2), p.2))).map Prod.fst) = _
      rw [List.map_map, List.map_map]
      rfl
    rw [heq]
    apply List.Nodup.map_on ?_ hcondk
    intro x hx y hy hEq
    obtain ⟨p1, hp1, rfl⟩ := List.mem_map.1 hx
    obtain ⟨p2, hp2, rfl⟩ := List.mem_map.1 hy
    obtain ⟨hc1, hc2⟩ := Prod.ext_iff.1 hEq
    have g1 := hcond p1 hp1
    have g2 := hcond p2 hp2
    exact Prod.ext_iff.2 ⟨hinj _ g1.1 _ g2.1 hc1, hinj _ g1.2.1 _ g2.2.1 hc2⟩

theorem next_free_aux_ge : ∀ (f : Nat) (aq : List St) (n : Int),
    n ≤ next_free_aux f aq n := by
  intro f
  induction f with
  | zero => intro aq n; exact le_refl n
  | succ f ih =>
    intro aq n
    unfold next_free_aux
    split
    · exact le_trans (by omega) (ih aq (n + 1))
    · exact le_refl n

theorem next_free_aux_spec : ∀ (f : Nat) (aq : List St) (n : Int),
    (∃ j : Nat, j < f ∧ St.int (n + j) ∉ aq) →
    St.int (next_free_aux f aq n) ∉ aq := by
  intro f
  induction f with
  | zero =>
    rintro aq n ⟨j, hj, -⟩
    omega
  | succ f ih =>
    rintro aq n ⟨j, hj, hnot⟩
    unfold next_free_aux
    split
    · next hmem =>
      have hj0 : j ≠ 0 := by
        rintro rfl
        rw [show n + ((0 : Nat) : Int) = n by simp] at hnot
        exact hnot hmem
      apply ih
      refine ⟨j - 1, by omega, ?_⟩
      have hcast : n + 1 + ((j - 1 : Nat) : Int) = n + (j : Int) := by omega
      rw [hcast]
      exact hnot
    · next hmem => exact hmem

theorem exists_free_in_window (aq : List St) (n : Int) :
    ∃ j : Nat, j < aq.length + 1 ∧ St.int (n + j) ∉ aq := by
  by_contra hcon
  push_neg at hcon
  have hmap : ∀ x ∈ (List.range (aq.length + 1)).map
      (fun j : Nat => St.int (n + (j : Int))), x ∈ aq := by
    intro x hx
    obtain ⟨j, hj, rfl⟩ := List.mem_map.1 hx
    exact hcon j (List.mem_range.1 hj)
  have hnd : ((List.range (aq.length + 1)).map
      (fun j : Nat => St.int (n + (j : Int)))).Nodup := by
    refine List.Nodup.map_on ?_ (List.nodup_range _)
    intro x _ y _ h
    have h2 : n + (x : Int) = n + (y : Int) := by
      have h3 := congrArg st_int_val h
      simpa [st_int_val] using h3
    omega
  have hsub := (hnd.subperm hmap).length_le
  rw [List.length_map, List.length_range] at hsub
  omega

theorem next_free_fresh (aq : List St) (n : Int) :
    St.int (next_free_aux (aq.length + 1) aq n) ∉ aq :=
  next_free_aux_spec _ aq n (exists_free_in_window aq n)

theorem apply_map_cons_ne {d : List (St × St)} {q v : St} {q0 : St} (h : q0 ≠ q) :
    apply_map ((q, v) :: d) q0 = apply_map d q0 := by
  have hlk : alLookup ((q, v) :: d) q0 = alLookup d q0 := by
    show (if q0 = q then some v else alLookup d q0) = alLookup d q0
    rw [if_neg h]
  unfold apply_map
  rw [hlk]

/-- The dictionary built by `create_different_states_names` maps every
state of the (duplicate-free) list to a fresh integer not in `aq`, and is
injective on that list. -/
theorem build_rename_spec (aq : List St) :
    ∀ (l : List St) (n : Int), l.Nodup →
      (∀ q ∈ l, ∃ k : Int, alLookup (build_rename aq l n) q = some (St.int k) ∧
        n ≤ k ∧ St.int k ∉ aq) ∧
      (∀ q1 ∈ l, ∀ q2 ∈ l,
        apply_map (build_rename aq l n) q1 = apply_map (build_rename aq l n) q2 →
          q1 = q2) := by
  intro l
  induction l with
  | nil => intro n _; exact ⟨by simp, by simp⟩
  | cons q rest ih =>
    intro n hnd
    have hqrest : q ∉ rest := (List.nodup_cons.1 hnd).1
    obtain ⟨ih1, ih2⟩ := ih (next_free_aux (aq.length + 1) aq n + 1) (hnd.of_cons)
    have hk_ge : n ≤ next_free_aux (aq.length + 1) aq n := next_free_aux_ge _ aq n
    have hk_fresh := next_free_fresh aq n
    constructor
    · intro q0 hq0
      rcases List.mem_cons.1 hq0 with rfl | hq0r
      · refine ⟨next_free_aux (aq.length + 1) aq n, ?_, hk_ge, hk_fresh⟩
        show (if q0 = q0 then _ else _) = _
        rw [if_pos rfl]
      · have hne : q0 ≠ q := fun h => hqrest (h ▸ hq0r)
        obtain ⟨k, hlk, hge, hfresh⟩ := ih1 q0 hq0r
        refine ⟨k, ?_, by omega, hfresh⟩
        show (if q0 = q then _ else _) = _
        rw [if_neg hne]
        exact hlk
    · intro q1 hq1 q2 hq2 hEq
      have hcons : build_rename aq (q :: rest) n =
          (q, St.int (next_free_aux (aq.length + 1) aq n)) ::
            build_rename aq rest (next_free_aux (aq.length + 1) aq n + 1) := rfl
      have hhead : apply_map (build_rename aq (q :: rest) n) q =
          St.int (next_free_aux (aq.length + 1) aq n) := by
        rw [hcons]
        unfold apply_map alLookup
        rw [if_pos rfl]
        rfl
      have htail : ∀ q0 ∈ rest, ∃ k : Int,
          apply_map (build_rename aq (q :: rest) n) q0 = St.int k ∧
          next_free_aux (aq.length + 1) aq n + 1 ≤ k := by
        intro q0 hq0
        obtain ⟨k, hlk, hge, -⟩ := ih1 q0 hq0
        have hne : q0 ≠ q := fun h => hqrest (h ▸ hq0)
        refine ⟨k, ?_, hge⟩
        rw [hcons, apply_map_cons_ne hne]
        unfold apply_map
        rw [hlk]
        rfl
      rcases List.mem_cons.1 hq1 with h1 | h1 <;> rcases List.mem_cons.1 hq2 with h2 | h2
      · rw [h1, h2]
      · exfalso
        obtain ⟨k2, hv2, hge2⟩ := htail q2 h2
        rw [h1, hhead, hv2] at hEq
        have hk : next_free_aux (aq.length + 1) aq n = k2 := by
          have h3 := congrArg st_int_val hEq
          simpa [st_int_val] using h3
        omega
      · exfalso
        obtain ⟨k1, hv1, hge1⟩ := htail q1 h1
        rw [h2, hhead, hv1] at hEq
        have hk : k1 = next_free_aux (aq.length + 1) aq n := by
          have h3 := congrArg st_int_val hEq
          simpa [st_int_val] using h3
        omega
      · have hne1 : q1 ≠ q := fun h => hqrest (h ▸ h1)
        have hne2 : q2 ≠ q := fun h => hqrest (h ▸ h2)
        apply ih2 q1 h1 q2 h2
        rw [hcons, apply_map_cons_ne hne1, apply_map_cons_ne hne2] at hEq
        exact hEq

/-- What `create_different_states_names` guarantees: the result is
well-formed, its states avoid all of the first automaton's states, and it
accepts the same words as the second automaton. -/
theorem cdsn_spec {A B : FSM} (hwfA : WF A) (hwfB : WF B) :
    WF (create_different_states_names A B) ∧
    (∀ q ∈ A.Q, q ∉ (create_different_states_names A B).Q) ∧
    (∀ w, accepts (create_different_states_names A B) w = accepts B w) := by
  unfold create_different_states_names
  split
  · next hempty =>
    refine ⟨hwfB, ?_, fun w => rfl⟩
    intro q hq hqB
    have : q ∈ A.Q.filter (fun q => decide (q ∈ B.Q)) :=
      List.mem_filter.2 ⟨hq, by simpa using hqB⟩
    rw [List.isEmpty_iff] at hempty
    rw [hempty] at this
    simp at this
  · obtain ⟨hlook, hinj0⟩ := build_rename_spec A.Q B.Q 1 hwfB.2.1
    have hinj : ∀ a ∈ B.Q, ∀ b ∈ B.Q,
        apply_map (build_rename A.Q B.Q 1) a = apply_map (build_rename A.Q B.Q 1) b →
          a = b := hinj0
    refine ⟨wf_rework hwfB hinj, ?_, fun w => accepts_rework hwfB hinj w⟩
    intro q hq hqB'
    rw [show (rework_states B (build_rename A.Q B.Q 1)).Q =
      smap (apply_map (build_rename A.Q B.Q 1)) B.Q from rfl, mem_smap] at hqB'
    obtain ⟨a, haB, haEq⟩ := hqB'
    obtain ⟨k, hlk, -, hfresh⟩ := hlook a haB
    have hval : apply_map (build_rename A.Q B.Q 1) a = St.int k := by
      unfold apply_map
      rw [hlk]
      rfl
    rw [hval] at haEq
    exact hfresh (haEq.symm ▸ hq)

theorem merge_get_rel_left {A Bp : FSM} (hwfBp : WF Bp) {x : St} (hx : x ∉ Bp.Q) :
    get_rel (merge_fsm A Bp) x = get_rel A x := by
  unfold get_rel
  rw [show (merge_fsm A Bp).relations = dict_merge A.relations Bp.relations from rfl,
    alLookup_dict_merge,
    alLookup_none_of_keys (P := fun k => k ∈ Bp.Q)
      (fun p hp => (hwfBp.2.2.2.2.2.2.1 p hp).1) hx]

theorem merge_get_rel_right {A Bp : FSM} (hwfA : WF A) {x : St} (hx : x ∉ A.Q) :
    get_rel (merge_fsm A Bp) x = get_rel Bp x := by
  unfold get_rel
  rw [show (merge_fsm A Bp).relations = dict_merge A.relations Bp.relations from rfl,
    alLookup_dict_merge]
  cases h : alLookup Bp.relations x with
  | some v => rfl
  | none =>
    rw [alLookup_none_of_keys (P := fun k => k ∈ A.Q)
      (fun p hp => (hwfA.2.2.2.2.2.2.1 p hp).1) hx]

theorem merge_get_cond_left {A Bp : FSM} (hwfBp : WF Bp) {x y : St} (hx : x ∉ Bp.Q) :
    get_cond (merge_fsm A Bp) x y = get_cond A x y := by
  unfold get_cond
  rw [show (merge_fsm A Bp).conditions = dict_merge A.conditions Bp.conditions from rfl,
    alLookup_dict_merge,
    alLookup_none_of_keys (P := fun k : St × St => k.1 ∈ Bp.Q)
      (fun p hp => (hwfBp.2.2.2.2.2.2.2.2.1 p hp).1) hx]

theorem merge_get_cond_right {A Bp : FSM} (hwfA : WF A) {x y : St} (hx : x ∉ A.Q) :
    get_cond (merge_fsm A Bp) x y = get_cond Bp x y := by
  unfold get_cond
  rw [show (merge_fsm A Bp).conditions = dict_merge A.conditions Bp.conditions from rfl,
    alLookup_dict_merge]
  cases h : alLookup Bp.conditions (x, y) with
  | some v => rfl
  | none =>
    rw [alLookup_none_of_keys (P := fun k : St × St => k.1 ∈ A.Q)
      (fun p hp => (hwfA.2.2.2.2.2.2.2.2.1 p hp).1) hx]

theorem merge_mem_pp_left {A Bp : FSM} (hwfA : WF A) (hwfBp : WF Bp)
    (hdisj : ∀ q ∈ A.Q, q ∉ Bp.Q) {s : St} (hs : s ∈ A.Q) {c : Sym} {t : St} :
    t ∈ possible_path (merge_fsm A Bp) s c ↔ t ∈ possible_path A s c := by
  have hsB : s ∉ Bp.Q := hdisj s hs
  rw [mem_possible_path, mem_possible_path, exist_rel_iff, exist_rel_iff,
    merge_get_rel_left hwfBp hsB]
  constructor
  · rintro ⟨hQ, hrel, hcond⟩
    have htA : t ∈ A.Q := wf_rel_value hwfA hrel
    rw [merge_get_cond_left hwfBp hsB] at hcond
    exact ⟨htA, hrel, hcond⟩
  · rintro ⟨htA, hrel, hcond⟩
    refine ⟨?_, hrel, ?_⟩
    · show t ∈ sunion A.Q Bp.Q
      exact mem_sunion.2 (Or.inl htA)
    · rw [merge_get_cond_left hwfBp hsB]
      exact hcond

theorem merge_mem_pp_right {A Bp : FSM} (hwfA : WF A) (hwfBp : WF Bp)
    (hdisj : ∀ q ∈ A.Q, q ∉ Bp.Q) {s : St} (hs : s ∈ Bp.Q) {c : Sym} {t : St} :
    t ∈ possible_path (merge_fsm A Bp) s c ↔ t ∈ possible_path Bp s c := by
  have hsA : s ∉ A.Q := fun h => hdisj s h hs
  rw [mem_possible_path, mem_possible_path, exist_rel_iff, exist_rel_iff,
    merge_get_rel_right hwfA hsA]
  constructor
  · rintro ⟨hQ, hrel, hcond⟩
    have htB : t ∈ Bp.Q := wf_rel_value hwfBp hrel
    rw [merge_get_cond_right hwfA hsA] at hcond
    exact ⟨htB, hrel, hcond⟩
  · rintro ⟨htB, hrel, hcond⟩
    refine ⟨?_, hrel, ?_⟩
    · show t ∈ sunion A.Q Bp.Q
      exact mem_sunion.2 (Or.inr htB)
    · rw [merge_get_cond_right hwfA hsA]
      exact hcond

theorem merge_accepts_from_left {A Bp : FSM} (hwfA : WF A) (hwfBp : WF Bp)
    (hdisj : ∀ q ∈ A.Q, q ∉ Bp.Q) :
    ∀ w, ∀ s ∈ A.Q, accepts_from (merge_fsm A Bp) w s = accepts_from A w s := by
  intro w
  induction w with
  | nil =>
    intro s hs
    show decide (s ∈ sunion A.Qf Bp.Qf) = decide (s ∈ A.Qf)
    apply bool_eq_of_iff
    simp only [decide_eq_true_iff]
    rw [mem_sunion]
    constructor
    · rintro (h | h)
      · exact h
      · exact absurd (hwfBp.2.2.2.2.2.1 s h) (hdisj s hs)
    · exact Or.inl
  | cons c rest ih =>
    intro s hs
    apply bool_eq_of_iff
    simp only [accepts_from, List.any_eq_true]
    constructor
    · rintro ⟨t, ht, hacc⟩
      have htA := (merge_mem_pp_left hwfA hwfBp hdisj hs).1 ht
      refine ⟨t, htA, ?_⟩
      rw [← ih t (possible_path_subset htA)]
      exact hacc
    · rintro ⟨t, ht, hacc⟩
      refine ⟨t, (merge_mem_pp_left hwfA hwfBp hdisj hs).2 ht, ?_⟩
      rw [ih t (possible_path_subset ht)]
      exact hacc

theorem merge_accepts_from_right {A Bp : FSM} (hwfA : WF A) (hwfBp : WF Bp)
    (hdisj : ∀ q ∈ A.Q, q ∉ Bp.Q) :
    ∀ w, ∀ s ∈ Bp.Q, accepts_from (merge_fsm A Bp) w s = accepts_from Bp w s := by
  intro w
  induction w with
  | nil =>
    intro s hs
    show decide (s ∈ sunion A.Qf Bp.Qf) = decide (s ∈ Bp.Qf)
    apply bool_eq_of_iff
    simp only [decide_eq_true_iff]
    rw [mem_sunion]
    constructor
    · rintro (h | h)
      · exact absurd hs (hdisj s (hwfA.2.2.2.2.2.1 s h))
      · exact h
    · exact Or.inr
  | cons c rest ih =>
    intro s hs
    apply bool_eq_of_iff
    simp only [accepts_from, List.any_eq_true]
    constructor
    · rintro ⟨t, ht, hacc⟩
      have htB := (merge_mem_pp_right hwfA hwfBp hdisj hs).1 ht
      refine ⟨t, htB, ?_⟩
      rw [← ih t (possible_path_subset htB)]
      exact hacc
    · rintro ⟨t, ht, hacc⟩
      refine ⟨t, (merge_mem_pp_right hwfA hwfBp hdisj hs).2 ht, ?_⟩
      rw [ih t (possible_path_subset ht)]
      exact hacc

/-- The disjoint merge accepts the union of the two languages. -/
theorem merge_accepts {A Bp : FSM} (hwfA : WF A) (hwfBp : WF Bp)
    (hdisj : ∀ q ∈ A.Q, q ∉ Bp.Q) (w : List Sym) :
    accepts (merge_fsm A Bp) w = (accepts A w || accepts Bp w) := by
  rw [accepts_eq_any, accepts_eq_any, accepts_eq_any]
  apply bool_eq_of_iff
  simp only [List.any_eq_true, Bool.or_eq_true]
  constructor
  · rintro ⟨s, hs, hacc⟩
    rcases mem_sunion.1 (show s ∈ sunion A.Qi Bp.Qi from hs) with h | h
    · refine Or.inl ⟨s, h, ?_⟩
      rw [← merge_accepts_from_left hwfA hwfBp hdisj w s (hwfA.2.2.2.2.1 s h)]
      exact hacc
    · refine Or.inr ⟨s, h, ?_⟩
      rw [← merge_accepts_from_right hwfA hwfBp hdisj w s (hwfBp.2.2.2.2.1 s h)]
      exact hacc
  · rintro (⟨s, hs, hacc⟩ | ⟨s, hs, hacc⟩)
    · refine ⟨s, show s ∈ sunion A.Qi Bp.Qi from mem_sunion.2 (Or.inl hs), ?_⟩
      rw [merge_accepts_from_left hwfA hwfBp hdisj w s (hwfA.2.2.2.2.1 s hs)]
      exact hacc
    · refine ⟨s, show s ∈ sunion A.Qi Bp.Qi from mem_sunion.2 (Or.inr hs), ?_⟩
      rw [merge_accepts_from_right hwfA hwfBp hdisj w s (hwfBp.2.2.2.2.1 s hs)]
      exact hacc

/-- Claim C4 — union law: for every pair of automata satisfying the spec
§3 data-model invariants (the second renamed apart when the state sets
collide, which is part of `union` itself), `union(A,B)` accepts a word iff
`A` or `B` does; by definition `union` is the disjoint merge of states,
initials, finals, relations and conditions, adding no transitions. -/
theorem c4_union (A B : FSM) (hwfA : WF A) (hwfB : WF B) (w : List Sym) :
    accepts (union A B) w = (accepts A w || accepts B w) := by
  obtain ⟨hwfB', hdisj, haccB'⟩ := cdsn_spec hwfA hwfB
  have h := merge_accepts hwfA hwfB' hdisj w
  rw [show union A B = merge_fsm A (create_different_states_names A B) from rfl, h,
    haccB' w]

/-- Witness for C4 at concrete automata with colliding state names. -/
theorem c4_witness :
    accepts (union exA1 exUB) ["b"] = (accepts exA1 ["b"] || accepts exUB ["b"]) :=
  c4_union exA1 exUB (by decide) (by decide) ["b"]

/-- Counterexample to claim C2 as stated: `exM2` is deterministic and
complete (per `is_deterministic`/`is_complete`, which place no bound on the
number of initial states), yet both it and its complement accept `"a"`. -/
theorem c2_counterexample :
    is_deterministic exM2 = true ∧
    is_complete exM2 = true ∧
    accepts exM2 ["a"] = true ∧
    accepts (complementary exM2) ["a"] = true := by
  decide

end Fsm
